import Mathlib

/-!
Shallow embedding of `volk_8u_x3_encodepolar_8u_x2.h` (polar-code encoder kernels).

Buffers of `unsigned char` are modelled as `List ℕ` whose cells hold byte
values; `frame` and `temp` are modelled as exactly `frame_size`-byte sequences.
Out-of-range reads return an explicit default (`0`, or the `junk` parameter for
the SIMD loads, which stands for whatever bytes follow the buffer in memory).
-/

namespace Volk

/-- Every cell of the buffer holds bit value 0 or 1. -/
def AllBits (l : List ℕ) : Prop := ∀ x ∈ l, x = 0 ∨ x = 1

instance : DecidablePred AllBits := fun l => List.decidableBAll _ l

/-- Embedding of `log2_of_power_of_2`: the Stanford bit-hack computing the
exponent of a 32-bit power of two with five mask tests. -/
def log2_of_power_of_2 (val : ℕ) : ℕ :=
  let res0 := if val &&& 0xAAAAAAAA ≠ 0 then 1 else 0
  let res1 := res0 ||| ((if val &&& 0xFFFF0000 ≠ 0 then 1 else 0) <<< 4)
  let res2 := res1 ||| ((if val &&& 0xFF00FF00 ≠ 0 then 1 else 0) <<< 3)
  let res3 := res2 ||| ((if val &&& 0xF0F0F0F0 ≠ 0 then 1 else 0) <<< 2)
  res3 ||| ((if val &&& 0xCCCCCCCC ≠ 0 then 1 else 0) <<< 1)

/-- Embedding of `interleave_frozen_and_info_bits`: the pointer advancement of
the C loop (`*target++ = *frozen_bit_mask++ ? *frozen_bits++ : *info_bits++`)
becomes consumption of list heads, iterated `frame_size` times. -/
def interleave_frozen_and_info_bits : ℕ → List ℕ → List ℕ → List ℕ → List ℕ
  | 0, _, _, _ => []
  | n + 1, mask, frozen, info =>
    if mask.headD 0 ≠ 0 then
      frozen.headD 0 :: interleave_frozen_and_info_bits n mask.tail frozen.tail info
    else
      info.headD 0 :: interleave_frozen_and_info_bits n mask.tail frozen info.tail

/-- Embedding of `encodepolar_single_stage`: for each branch the output bytes
at `branch * 2 * frame_half + bit` (the XOR half) followed by the bytes at
`branch * 2 * frame_half + frame_half + bit` (the copied-odd half), exactly the
positions the C pointers walk. -/
def encodepolar_single_stage (temp : List ℕ) (num_branches frame_half : ℕ) : List ℕ :=
  (List.range num_branches).flatMap fun branch =>
    ((List.range frame_half).map fun bit =>
      temp.getD (2 * frame_half * branch + 2 * bit) 0 ^^^
        temp.getD (2 * frame_half * branch + 2 * bit + 1) 0) ++
    ((List.range frame_half).map fun bit =>
      temp.getD (2 * frame_half * branch + 2 * bit + 1) 0)

/-- The `while(stage)` loop of the generic kernel: encode one stage into
`frame`, `memcpy` it back into `temp`, double `num_branches`, halve
`frame_half`, decrement `stage`. -/
def generic_encode_loop : ℕ → ℕ → ℕ → List ℕ → List ℕ → List ℕ × List ℕ
  | 0, _, _, frame, temp => (frame, temp)
  | stage + 1, num_branches, frame_half, _frame, temp =>
    let frame := encodepolar_single_stage temp num_branches frame_half
    generic_encode_loop stage (num_branches <<< 1) (frame_half >>> 1) frame frame

/-- Embedding of `volk_8u_x3_encodepolar_8u_x2_generic`; returns the final
contents of `(frame, temp)`. -/
def volk_8u_x3_encodepolar_8u_x2_generic
    (frame temp mask frozen info : List ℕ) (frame_size : ℕ) : List ℕ × List ℕ :=
  let stage := log2_of_power_of_2 frame_size
  let temp1 := interleave_frozen_and_info_bits frame_size mask frozen info
  generic_encode_loop stage 1 (frame_size >>> 1) frame temp1

/-! ### SSSE3 model

A `__m128i` is a list of 16 byte cells.  `_mm_loadu_si128`/`_mm_load_si128`
(which coincide in this memory model) read 16 consecutive cells; a read past
the end of the buffer yields the `junk` parameter, standing for the unknown
bytes that follow the buffer in memory. -/

def load16 (buf : List ℕ) (ptr : ℕ) (junk : ℕ) : List ℕ :=
  (List.range 16).map fun i => buf.getD (ptr + i) junk

def mm_xor_si128 (a b : List ℕ) : List ℕ := List.zipWith (· ^^^ ·) a b

def mm_and_si128 (a b : List ℕ) : List ℕ := List.zipWith (· &&& ·) a b

/-- `_mm_bsrli_si128`: shift the whole 128-bit value right by `imm` bytes. -/
def mm_bsrli_si128 (a : List ℕ) (imm : ℕ) : List ℕ :=
  (List.range 16).map fun i => if i + imm < 16 then a.getD (i + imm) 0 else 0

/-- `_mm_shuffle_epi8`: byte `i` of the result is 0 when control byte `i` has
its high bit set, else the source byte selected by its low nibble. -/
def mm_shuffle_epi8 (a ctrl : List ℕ) : List ℕ :=
  ctrl.map fun c => if c &&& 0x80 ≠ 0 then 0 else a.getD (c &&& 0x0F) 0

def mm_unpacklo_epi64 (a b : List ℕ) : List ℕ := a.take 8 ++ b.take 8

def mm_unpackhi_epi64 (a b : List ℕ) : List ℕ := a.drop 8 ++ b.drop 8

/-- `_mm_set_epi8` lists its arguments from byte 15 down to byte 0. -/
def mm_set_epi8 (e15 e14 e13 e12 e11 e10 e9 e8 e7 e6 e5 e4 e3 e2 e1 e0 : ℕ) : List ℕ :=
  [e0, e1, e2, e3, e4, e5, e6, e7, e8, e9, e10, e11, e12, e13, e14, e15]

/-- `_mm_setr_epi8` lists its arguments from byte 0 up to byte 15. -/
def mm_setr_epi8 (e0 e1 e2 e3 e4 e5 e6 e7 e8 e9 e10 e11 e12 e13 e14 e15 : ℕ) : List ℕ :=
  [e0, e1, e2, e3, e4, e5, e6, e7, e8, e9, e10, e11, e12, e13, e14, e15]

def mask_stage1 : List ℕ :=
  mm_set_epi8 0x0 0xFF 0x0 0xFF 0x0 0xFF 0x0 0xFF 0x0 0xFF 0x0 0xFF 0x0 0xFF 0x0 0xFF

def shuffle_separate : List ℕ := mm_setr_epi8 0 2 4 6 8 10 12 14 1 3 5 7 9 11 13 15

def shuffle_stage4 : List ℕ := mm_setr_epi8 0 8 4 12 2 10 6 14 1 9 5 13 3 11 7 15

def mask_stage4 : List ℕ :=
  mm_set_epi8 0x0 0x0 0x0 0x0 0x0 0x0 0x0 0x0 0xFF 0xFF 0xFF 0xFF 0xFF 0xFF 0xFF 0xFF

def mask_stage3 : List ℕ :=
  mm_set_epi8 0x0 0x0 0x0 0x0 0xFF 0xFF 0xFF 0xFF 0x0 0x0 0x0 0x0 0xFF 0xFF 0xFF 0xFF

def mask_stage2 : List ℕ :=
  mm_set_epi8 0x0 0x0 0xFF 0xFF 0x0 0x0 0xFF 0xFF 0x0 0x0 0xFF 0xFF 0x0 0x0 0xFF 0xFF

/-- One 32-byte step of the inner loop of the coarse tier: load two chunks,
separate even (XORed) and odd bytes in each, and recombine the 64-bit halves.
Returns the 16 bytes stored at `frame_ptr` and the 16 stored at
`frame_ptr + frame_half`. -/
def coarse_chunk (temp : List ℕ) (ptr : ℕ) (junk : ℕ) : List ℕ × List ℕ :=
  let r_temp0 := load16 temp ptr junk
  let r_temp1 := load16 temp (ptr + 16) junk
  let s0 := mm_and_si128 (mm_bsrli_si128 r_temp0 1) mask_stage1
  let p0 := mm_shuffle_epi8 (mm_xor_si128 s0 r_temp0) shuffle_separate
  let s1 := mm_and_si128 (mm_bsrli_si128 r_temp1 1) mask_stage1
  let p1 := mm_shuffle_epi8 (mm_xor_si128 s1 r_temp1) shuffle_separate
  (mm_unpacklo_epi64 p0 p1, mm_unpackhi_epi64 p0 p1)

/-- One full pass of the coarse tier (`stage > 4`): per branch, the low stores
fill `frame[branch*2*frame_half ..]` and the high stores fill the half-offset
positions, after which `frame_ptr` skips the high half. -/
def coarse_pass (num_branches frame_half : ℕ) (temp : List ℕ) (junk : ℕ) : List ℕ :=
  (List.range num_branches).flatMap fun branch =>
    ((List.range (frame_half / 16)).flatMap fun c =>
      (coarse_chunk temp (2 * frame_half * branch + 32 * c) junk).1) ++
    ((List.range (frame_half / 16)).flatMap fun c =>
      (coarse_chunk temp (2 * frame_half * branch + 32 * c) junk).2)

/-- The `while(stage > 4)` loop of the SSSE3 kernels: pass, `memcpy` back into
`temp`, double `num_branches`, halve `frame_half`, decrement `stage`; returns
the final `(temp, num_branches, frame_half)`. -/
def coarse_tier : ℕ → ℕ → ℕ → List ℕ → ℕ → List ℕ × ℕ × ℕ
  | stage + 5, num_branches, frame_half, temp, junk =>
    coarse_tier (stage + 4) (num_branches <<< 1) (frame_half >>> 1)
      (coarse_pass num_branches frame_half temp junk) junk
  | _, num_branches, frame_half, temp, _ => (temp, num_branches, frame_half)

/-- The fused last-four-stages network applied to one 16-byte chunk: one
bit-reversal shuffle followed by the masked-shift XOR cascade for widths
8, 4, 2, 1. -/
def fine_network (r_temp0 : List ℕ) : List ℕ :=
  let r := mm_shuffle_epi8 r_temp0 shuffle_stage4
  let f4 := mm_xor_si128 (mm_and_si128 (mm_bsrli_si128 r 8) mask_stage4) r
  let f3 := mm_xor_si128 (mm_and_si128 (mm_bsrli_si128 f4 4) mask_stage3) f4
  let f2 := mm_xor_si128 (mm_and_si128 (mm_bsrli_si128 f3 2) mask_stage2) f3
  mm_xor_si128 (mm_and_si128 (mm_bsrli_si128 f2 1) mask_stage1) f2

/-- The fine-tier branch loop.  `r_temp0` holds the chunk loaded before the
iteration; each iteration stores `fine_network r_temp0` and (pipelined, in the
middle of the network in the C code) loads the next chunk from `temp_ptr`,
which on the final iteration points one full chunk past the processed data. -/
def fine_loop : ℕ → ℕ → List ℕ → List ℕ → ℕ → List ℕ
  | 0, _, _, _, _ => []
  | b + 1, ptr, r_temp0, temp, junk =>
    fine_network r_temp0 ++ fine_loop b (ptr + 16) (load16 temp ptr junk) temp junk

/-- Start offsets of the 16-byte loads issued by `fine_loop b ptr _ temp junk`
(one load per iteration, at the running `temp_ptr`); mirrors the recursion of
`fine_loop` load for load. -/
def fine_load_offsets : ℕ → ℕ → List ℕ
  | 0, _ => []
  | b + 1, ptr => ptr :: fine_load_offsets b (ptr + 16)

/-- Embedding of `volk_8u_x3_encodepolar_8u_x2_u_ssse3`; returns the final
contents of `(frame, temp)`.  The first chunk is loaded before the fine loop
with `temp_ptr` left at 16. -/
def volk_8u_x3_encodepolar_8u_x2_u_ssse3
    (junk : ℕ) (frame temp mask frozen info : List ℕ) (frame_size : ℕ) : List ℕ × List ℕ :=
  let stage := log2_of_power_of_2 frame_size
  let temp1 := interleave_frozen_and_info_bits frame_size mask frozen info
  let ct := coarse_tier stage 1 (frame_size >>> 1) temp1 junk
  (fine_loop ct.2.1 16 (load16 ct.1 0 junk) ct.1 junk, ct.1)

/-- Embedding of `volk_8u_x3_encodepolar_8u_x2_a_ssse3`: identical to the
unaligned variant except that it uses `_mm_load_si128`/`_mm_store_si128`,
which coincide with the unaligned operations in this memory model. -/
def volk_8u_x3_encodepolar_8u_x2_a_ssse3
    (junk : ℕ) (frame temp mask frozen info : List ℕ) (frame_size : ℕ) : List ℕ × List ℕ :=
  let stage := log2_of_power_of_2 frame_size
  let temp1 := interleave_frozen_and_info_bits frame_size mask frozen info
  let ct := coarse_tier stage 1 (frame_size >>> 1) temp1 junk
  (fine_loop ct.2.1 16 (load16 ct.1 0 junk) ct.1 junk, ct.1)

/-! ### Specification-side definitions

These definitions transcribe the prose of the specification (not the C code);
the refinement claims compare them with the code embeddings above. -/

/-- Number of nonzero mask cells strictly before position `i` — the value of
the spec's monotonic frozen cursor when position `i` is reached. -/
def frozen_count_before (mask : List ℕ) (i : ℕ) : ℕ :=
  (mask.take i).countP fun x => x != 0

/-- Interleaving as worded by the spec: scan positions `0..N-1` in order; at a
position with nonzero mask write the next unread frozen value, otherwise the
next unread info value, both cursors starting at 0 and monotonic. -/
def spec_interleave (frame_size : ℕ) (mask frozen info : List ℕ) : List ℕ :=
  (List.range frame_size).map fun i =>
    if mask.getD i 0 ≠ 0 then frozen.getD (frozen_count_before mask i) 0
    else info.getD (i - frozen_count_before mask i) 0

/-- Value of output position `pos` in one transform pass as worded by the
spec: with `branchOffset = 2*half*(pos / (2*half))` and local index
`loc = pos % (2*half)`, position `branchOffset + j` (`loc < half`, `j = loc`)
receives `temp[branchOffset + 2j] XOR temp[branchOffset + 2j + 1]` and
position `branchOffset + j + half` (`j = loc - half`) receives
`temp[branchOffset + 2j + 1]`. -/
def spec_pass_value (temp : List ℕ) (half pos : ℕ) : ℕ :=
  let branchOffset := 2 * half * (pos / (2 * half))
  let loc := pos % (2 * half)
  if loc < half then
    temp.getD (branchOffset + 2 * loc) 0 ^^^ temp.getD (branchOffset + 2 * loc + 1) 0
  else
    temp.getD (branchOffset + 2 * (loc - half) + 1) 0

/-- One full spec pass: all `branchCount * 2 * half` output positions. -/
def spec_single_pass (branchCount half : ℕ) (temp : List ℕ) : List ℕ :=
  (List.range (branchCount * (2 * half))).map (spec_pass_value temp half)

/-- The spec's pass iteration: perform `stages` passes, after each one copying
the result back as the next input, doubling `branchCount`, halving `half`. -/
def spec_passes : ℕ → ℕ → ℕ → List ℕ → List ℕ
  | 0, _, _, temp => temp
  | stages + 1, branchCount, half, temp =>
    spec_passes stages (2 * branchCount) (half / 2) (spec_single_pass branchCount half temp)

/-! ### General helper lemmas -/

theorem headD_eq_getD (l : List ℕ) (d : ℕ) : l.headD d = l.getD 0 d := by
  cases l <;> rfl

theorem getD_tail (l : List ℕ) (n d : ℕ) : l.tail.getD n d = l.getD (n + 1) d := by
  cases l <;> rfl

theorem log2_two_pow : ∀ k < 32, log2_of_power_of_2 (2 ^ k) = k := by decide

theorem frozen_count_before_zero (mask : List ℕ) : frozen_count_before mask 0 = 0 := rfl

theorem frozen_count_before_cons (m : ℕ) (ms : List ℕ) (i : ℕ) :
    frozen_count_before (m :: ms) (i + 1) =
      frozen_count_before ms i + (if m ≠ 0 then 1 else 0) := by
  simp only [frozen_count_before, List.take_succ_cons, List.countP_cons]
  congr 1
  by_cases hm : m = 0 <;> simp [hm]

theorem frozen_count_before_le (mask : List ℕ) (i : ℕ) : frozen_count_before mask i ≤ i :=
  le_trans (List.countP_le_length _) (le_trans (List.length_take_le _ _) le_rfl)

/-! ### Interleaving: code vs spec (C3) -/

theorem interleave_length (N : ℕ) :
    ∀ mask frozen info : List ℕ,
      (interleave_frozen_and_info_bits N mask frozen info).length = N := by
  induction N with
  | zero => intro mask frozen info; rfl
  | succ n ih =>
    intro mask frozen info
    rw [interleave_frozen_and_info_bits]
    split
    · rw [List.length_cons, ih]
    · rw [List.length_cons, ih]

theorem interleave_eq_spec (N : ℕ) :
    ∀ mask frozen info : List ℕ, N ≤ mask.length →
      interleave_frozen_and_info_bits N mask frozen info =
        spec_interleave N mask frozen info := by
  induction N with
  | zero => intro mask frozen info _; rfl
  | succ n ih =>
    intro mask frozen info hlen
    cases mask with
    | nil => simp at hlen
    | cons m ms =>
      have hlen' : n ≤ ms.length := by simpa using hlen
      rw [interleave_frozen_and_info_bits, spec_interleave, List.range_succ_eq_map,
        List.map_cons, List.map_map, List.headD_cons]
      by_cases hm : m = 0
      · rw [if_neg (by simp [hm]), if_neg (by simp [hm, List.getD_cons_zero])]
        congr 1
        · rw [frozen_count_before_zero, headD_eq_getD]
        · rw [List.tail_cons, ih ms frozen info.tail hlen', spec_interleave]
          refine List.map_congr_left fun i _ => ?_
          have hc : frozen_count_before (m :: ms) (i + 1) = frozen_count_before ms i := by
            rw [frozen_count_before_cons, if_neg (by simp [hm]), Nat.add_zero]
          have hle : frozen_count_before ms i ≤ i := frozen_count_before_le ms i
          show _ = (fun p => if (m :: ms).getD p 0 ≠ 0 then _ else _) (Nat.succ i)
          simp only [Nat.succ_eq_add_one, List.getD_cons_succ, hc]
          by_cases h : ms.getD i 0 = 0
          · rw [if_neg (fun hne => hne h), if_neg (fun hne => hne h),
              show i + 1 - frozen_count_before ms i = (i - frozen_count_before ms i) + 1 by
                omega,
              getD_tail]
          · rw [if_pos h, if_pos h]
      · rw [if_pos hm, if_pos (by simp [List.getD_cons_zero, hm])]
        congr 1
        · rw [frozen_count_before_zero, headD_eq_getD]
        · rw [List.tail_cons, ih ms frozen.tail info hlen', spec_interleave]
          refine List.map_congr_left fun i _ => ?_
          have hc : frozen_count_before (m :: ms) (i + 1) = frozen_count_before ms i + 1 := by
            rw [frozen_count_before_cons, if_pos hm]
          show _ = (fun p => if (m :: ms).getD p 0 ≠ 0 then _ else _) (Nat.succ i)
          simp only [Nat.succ_eq_add_one, List.getD_cons_succ, hc]
          by_cases h : ms.getD i 0 = 0
          · rw [if_neg (fun hne => hne h), if_neg (fun hne => hne h), Nat.succ_sub_succ]
          · rw [if_pos h, if_pos h, getD_tail]

/-! ### Single stage: code vs spec (C2) -/

theorem single_stage_eq_spec (temp : List ℕ) (h : ℕ) :
    ∀ b : ℕ, encodepolar_single_stage temp b h = spec_single_pass b h temp := by
  intro b
  induction b with
  | zero => simp [encodepolar_single_stage, spec_single_pass]
  | succ b ih =>
    rw [encodepolar_single_stage, spec_single_pass, List.range_succ, List.flatMap_append,
      show (b + 1) * (2 * h) = b * (2 * h) + 2 * h by ring, List.range_add, List.map_append,
      List.map_map]
    rw [encodepolar_single_stage, spec_single_pass] at ih
    rw [ih]
    congr 1
    rw [List.flatMap_cons, List.flatMap_nil, List.append_nil,
      show 2 * h = h + h from (two_mul h), List.range_add, List.map_append, List.map_map]
    congr 1
    · refine List.map_congr_left fun j hj => ?_
      have hjh : j < h := List.mem_range.mp hj
      have hdiv : (b * (h + h) + j) / (h + h) = b := by
        rw [Nat.add_comm, Nat.add_mul_div_right _ _ (by omega : 0 < h + h),
          Nat.div_eq_of_lt (by omega), Nat.zero_add]
      have hmod : (b * (h + h) + j) % (h + h) = j := by
        rw [Nat.add_comm, Nat.add_mul_mod_self_right, Nat.mod_eq_of_lt (by omega)]
      simp only [Function.comp_apply, spec_pass_value, show 2 * h = h + h from two_mul h,
        hdiv, hmod, if_pos hjh]
    · refine List.map_congr_left fun j hj => ?_
      have hjh : j < h := List.mem_range.mp hj
      have hdiv : (b * (h + h) + (h + j)) / (h + h) = b := by
        rw [Nat.add_comm, Nat.add_mul_div_right _ _ (by omega : 0 < h + h),
          Nat.div_eq_of_lt (by omega), Nat.zero_add]
      have hmod : (b * (h + h) + (h + j)) % (h + h) = h + j := by
        rw [Nat.add_comm, Nat.add_mul_mod_self_right, Nat.mod_eq_of_lt (by omega)]
      simp only [Function.comp_apply, spec_pass_value, show 2 * h = h + h from two_mul h,
        hdiv, hmod, if_neg (by omega : ¬h + j < h), Nat.add_sub_cancel_left]

theorem generic_loop_snd (s : ℕ) :
    ∀ b h frame temp,
      (generic_encode_loop s b h frame temp).2 = spec_passes s b h temp := by
  induction s with
  | zero => intro b h frame temp; rfl
  | succ s ih =>
    intro b h frame temp
    rw [generic_encode_loop, spec_passes, ih, single_stage_eq_spec,
      Nat.shiftLeft_eq, Nat.shiftRight_eq_div_pow, pow_one, Nat.mul_comm b 2]

theorem generic_loop_fst (s : ℕ) :
    ∀ b h frame temp,
      (generic_encode_loop (s + 1) b h frame temp).1 = spec_passes (s + 1) b h temp := by
  induction s with
  | zero =>
    intro b h frame temp
    rw [generic_encode_loop, generic_encode_loop, spec_passes, spec_passes,
      single_stage_eq_spec]
  | succ s ih =>
    intro b h frame temp
    rw [generic_encode_loop, spec_passes, ih, single_stage_eq_spec,
      Nat.shiftLeft_eq, Nat.shiftRight_eq_div_pow, pow_one, Nat.mul_comm b 2]

/-! ### Bit-value preservation -/

theorem allBits_getD {t : List ℕ} (ht : AllBits t) (i : ℕ) :
    t.getD i 0 = 0 ∨ t.getD i 0 = 1 := by
  rcases Nat.lt_or_ge i t.length with hi | hi
  · rw [List.getD_eq_getElem?_getD, List.getElem?_eq_getElem hi, Option.getD_some]
    exact ht _ (List.getElem_mem hi)
  · rw [List.getD_eq_getElem?_getD, List.getElem?_eq_none hi, Option.getD_none]
    exact Or.inl rfl

theorem bit_xor_bit {a b : ℕ} (ha : a = 0 ∨ a = 1) (hb : b = 0 ∨ b = 1) :
    a ^^^ b = 0 ∨ a ^^^ b = 1 := by
  rcases ha with rfl | rfl <;> rcases hb with rfl | rfl <;> simp

theorem allBits_tail {l : List ℕ} (hl : AllBits l) : AllBits l.tail :=
  fun x hx => hl x (List.mem_of_mem_tail hx)

theorem allBits_interleave (N : ℕ) :
    ∀ mask frozen info : List ℕ, AllBits frozen → AllBits info →
      AllBits (interleave_frozen_and_info_bits N mask frozen info) := by
  induction N with
  | zero => intro mask frozen info _ _ x hx; cases hx
  | succ n ih =>
    intro mask frozen info hf hi
    rw [interleave_frozen_and_info_bits]
    split
    · intro x hx
      rcases List.mem_cons.mp hx with rfl | hx
      · rw [headD_eq_getD]; exact allBits_getD hf 0
      · exact ih mask.tail frozen.tail info (allBits_tail hf) hi x hx
    · intro x hx
      rcases List.mem_cons.mp hx with rfl | hx
      · rw [headD_eq_getD]; exact allBits_getD hi 0
      · exact ih mask.tail frozen info.tail hf (allBits_tail hi) x hx

theorem allBits_single_stage {t : List ℕ} (ht : AllBits t) (b h : ℕ) :
    AllBits (encodepolar_single_stage t b h) := by
  intro x hx
  rw [encodepolar_single_stage] at hx
  simp only [List.mem_flatMap, List.mem_append, List.mem_map, List.mem_range] at hx
  obtain ⟨br, -, hcase⟩ := hx
  rcases hcase with ⟨bit, -, rfl⟩ | ⟨bit, -, rfl⟩
  · exact bit_xor_bit (allBits_getD ht _) (allBits_getD ht _)
  · exact allBits_getD ht _

theorem allBits_spec_single_pass (b h : ℕ) {t : List ℕ} (ht : AllBits t) :
    AllBits (spec_single_pass b h t) := by
  rw [← single_stage_eq_spec]
  exact allBits_single_stage ht b h

theorem allBits_spec_passes (s : ℕ) :
    ∀ (b h : ℕ) {t : List ℕ}, AllBits t → AllBits (spec_passes s b h t) := by
  induction s with
  | zero => intro b h t ht; exact ht
  | succ s ih =>
    intro b h t ht
    rw [spec_passes]
    exact ih _ _ (allBits_spec_single_pass b h ht)

/-! ### Linearity over XOR -/

theorem getD_zipWith_xor {a b : List ℕ} (hlen : a.length = b.length) (i : ℕ) :
    (List.zipWith (· ^^^ ·) a b).getD i 0 = a.getD i 0 ^^^ b.getD i 0 := by
  rcases Nat.lt_or_ge i a.length with hi | hi
  · have hib : i < b.length := hlen ▸ hi
    rw [List.getD_eq_getElem?_getD, List.getD_eq_getElem?_getD, List.getD_eq_getElem?_getD,
      List.getElem?_zipWith, List.getElem?_eq_getElem hi, List.getElem?_eq_getElem hib]
    rfl
  · have hib : b.length ≤ i := hlen ▸ hi
    rw [List.getD_eq_getElem?_getD, List.getD_eq_getElem?_getD, List.getD_eq_getElem?_getD,
      List.getElem?_zipWith, List.getElem?_eq_none hi, List.getElem?_eq_none hib]
    rfl

theorem length_spec_single_pass (b h : ℕ) (t : List ℕ) :
    (spec_single_pass b h t).length = b * (2 * h) := by
  rw [spec_single_pass, List.length_map, List.length_range]

theorem spec_single_pass_linear (b h : ℕ) {t1 t2 : List ℕ} (hlen : t1.length = t2.length) :
    spec_single_pass b h (List.zipWith (· ^^^ ·) t1 t2) =
      List.zipWith (· ^^^ ·) (spec_single_pass b h t1) (spec_single_pass b h t2) := by
  rw [spec_single_pass, spec_single_pass, spec_single_pass, List.zipWith_map,
    List.zipWith_same]
  refine List.map_congr_left fun pos _ => ?_
  simp only [spec_pass_value]
  split
  · rw [getD_zipWith_xor hlen, getD_zipWith_xor hlen]
    ac_rfl
  · rw [getD_zipWith_xor hlen]

theorem spec_passes_linear (s : ℕ) :
    ∀ (b h : ℕ) {t1 t2 : List ℕ}, t1.length = t2.length →
      spec_passes s b h (List.zipWith (· ^^^ ·) t1 t2) =
        List.zipWith (· ^^^ ·) (spec_passes s b h t1) (spec_passes s b h t2) := by
  induction s with
  | zero => intro b h t1 t2 _; rfl
  | succ s ih =>
    intro b h t1 t2 hlen
    rw [spec_passes, spec_passes, spec_passes, spec_single_pass_linear b h hlen,
      ih _ _ (by rw [length_spec_single_pass, length_spec_single_pass])]

theorem interleave_zero_mask (N : ℕ) :
    ∀ frozen info : List ℕ,
      interleave_frozen_and_info_bits N (List.replicate N 0) frozen info =
        (List.range N).map fun i => info.getD i 0 := by
  induction N with
  | zero => intro frozen info; rfl
  | succ n ih =>
    intro frozen info
    rw [List.replicate_succ, interleave_frozen_and_info_bits, List.headD_cons,
      if_neg (by trivial), List.range_succ_eq_map, List.map_cons, List.map_map,
      List.tail_cons, ih frozen info.tail]
    congr 1
    · rw [headD_eq_getD]
    · refine List.map_congr_left fun i _ => ?_
      show info.tail.getD i 0 = info.getD (Nat.succ i) 0
      rw [getD_tail]

/-! ### The generic kernel as spec passes -/

theorem generic_eq_spec_passes (S : ℕ) (hS : S < 32) (frame temp mask frozen info : List ℕ) :
    volk_8u_x3_encodepolar_8u_x2_generic frame temp mask frozen info (2 ^ S) =
      ((if S = 0 then frame
        else spec_passes S 1 (2 ^ S / 2)
          (interleave_frozen_and_info_bits (2 ^ S) mask frozen info)),
       spec_passes S 1 (2 ^ S / 2)
         (interleave_frozen_and_info_bits (2 ^ S) mask frozen info)) := by
  unfold volk_8u_x3_encodepolar_8u_x2_generic
  rw [log2_two_pow S hS, Nat.shiftRight_eq_div_pow, pow_one]
  cases S with
  | zero => rfl
  | succ s =>
    rw [if_neg (Nat.succ_ne_zero s)]
    exact Prod.ext (generic_loop_fst s _ _ _ _) (generic_loop_snd (s + 1) _ _ _ _)

/-! ### Claim theorems -/

/-- C2: for a power-of-two frame size `2 ^ S` the scalar encoder performs
exactly `S` passes; each pass writes, for every branch and local index `j`,
`frame[branchOffset + j] = temp[branchOffset + 2j] XOR temp[branchOffset + 2j + 1]`
and `frame[branchOffset + j + half] = temp[branchOffset + 2j + 1]`, then copies
`frame` back into `temp`, doubles the branch count and halves `half`
(`half` starting at `2 ^ S / 2`, branch count starting at 1): the kernel's
result is exactly the spec-worded pass iteration `spec_passes` applied to the
interleaved buffer (the original `frame` survives only in the degenerate
zero-pass case `S = 0`). -/
theorem C2_generic_is_spec_pass_iteration (S : ℕ) (hS : S < 32)
    (frame temp mask frozen info : List ℕ) :
    volk_8u_x3_encodepolar_8u_x2_generic frame temp mask frozen info (2 ^ S) =
      ((if S = 0 then frame
        else spec_passes S 1 (2 ^ S / 2)
          (interleave_frozen_and_info_bits (2 ^ S) mask frozen info)),
       spec_passes S 1 (2 ^ S / 2)
         (interleave_frozen_and_info_bits (2 ^ S) mask frozen info)) :=
  generic_eq_spec_passes S hS frame temp mask frozen info

/-- Witness for C2 at `S = 2` with the inputs of spec scenario 2. -/
theorem C2_witness :
    2 < 32 ∧
      volk_8u_x3_encodepolar_8u_x2_generic [9, 9, 9, 9] [8, 8, 8, 8] [1, 0, 0, 1] [0, 0] [1, 0]
          (2 ^ 2) =
        ((if 2 = 0 then [9, 9, 9, 9]
          else spec_passes 2 1 (2 ^ 2 / 2)
            (interleave_frozen_and_info_bits (2 ^ 2) [1, 0, 0, 1] [0, 0] [1, 0])),
         spec_passes 2 1 (2 ^ 2 / 2)
           (interleave_frozen_and_info_bits (2 ^ 2) [1, 0, 0, 1] [0, 0] [1, 0])) :=
  ⟨by decide, C2_generic_is_spec_pass_iteration 2 (by decide) [9, 9, 9, 9] [8, 8, 8, 8]
    [1, 0, 0, 1] [0, 0] [1, 0]⟩

/-- C3: the interleaver scans positions `0..N-1` in order, writing the next
unread frozen value at nonzero-mask positions and the next unread info value
elsewhere, both cursors starting at 0 and monotonic (formalised by the cursor
value `frozen_count_before` in `spec_interleave`), and the target is fully
populated (length `N`). -/
theorem C3_interleave_cursor_semantics (N : ℕ) (mask frozen info : List ℕ)
    (hm : mask.length = N)
    (hf : frozen.length = mask.countP (fun x => x != 0))
    (hi : info.length = N - mask.countP (fun x => x != 0)) :
    interleave_frozen_and_info_bits N mask frozen info =
        spec_interleave N mask frozen info ∧
      (interleave_frozen_and_info_bits N mask frozen info).length = N :=
  ⟨interleave_eq_spec N mask frozen info (le_of_eq hm.symm),
    interleave_length N mask frozen info⟩

/-- Witness for C3 at `N = 4`, `mask = [1,0,0,1]`. -/
theorem C3_witness :
    ([1, 0, 0, 1] : List ℕ).length = 4 ∧
      ([0, 0] : List ℕ).length = ([1, 0, 0, 1] : List ℕ).countP (fun x => x != 0) ∧
      ([1, 0] : List ℕ).length = 4 - ([1, 0, 0, 1] : List ℕ).countP (fun x => x != 0) ∧
      (interleave_frozen_and_info_bits 4 [1, 0, 0, 1] [0, 0] [1, 0] =
          spec_interleave 4 [1, 0, 0, 1] [0, 0] [1, 0] ∧
        (interleave_frozen_and_info_bits 4 [1, 0, 0, 1] [0, 0] [1, 0]).length = 4) :=
  ⟨by decide, by decide, by decide,
    C3_interleave_cursor_semantics 4 [1, 0, 0, 1] [0, 0] [1, 0] (by decide) (by decide)
      (by decide)⟩

/-- C5 fails on the code: for `frame_size = 1` the generic kernel interleaves
into `temp` and performs zero passes, so `frame` is never written.  With prior
contents `[7]`, mask `[0]` and info value `[1]` the claim would require
`frame = [1]`, but the kernel leaves `frame = [7]`. -/
theorem C5_counterexample :
    (volk_8u_x3_encodepolar_8u_x2_generic [7] [9] [0] [] [1] 1).1 ≠ [1] := by decide

/-- C5 (amended): for `frame_size = 1` the scalar encoder performs zero
transform passes; the single interleaved value (`frozenValues[0]` if `mask[0]`
is nonzero, else `infoValues[0]`) is left in `temp`, while `frame` is not
written and keeps its prior contents. -/
theorem C5_amended_frame_untouched (frame temp mask frozen info : List ℕ) :
    volk_8u_x3_encodepolar_8u_x2_generic frame temp mask frozen info 1 =
      (frame, [if mask.headD 0 ≠ 0 then frozen.headD 0 else info.headD 0]) := by
  show (frame, interleave_frozen_and_info_bits 1 mask frozen info) = _
  have h1 : interleave_frozen_and_info_bits 1 mask frozen info =
      [if mask.headD 0 ≠ 0 then frozen.headD 0 else info.headD 0] := by
    rw [interleave_frozen_and_info_bits]
    split <;> rfl
  rw [h1]

/-- C6: concrete scenario 2 of the spec: `frameSize = 4`,
`mask = [1,0,0,1]`, `frozenValues = [0,0]`, `infoValues = [1,0]` give the
interleaved working buffer `[0,1,0,0]` and the scalar encoder produces
`frame = [1,0,1,0]`. -/
theorem C6_concrete_scenario :
    interleave_frozen_and_info_bits 4 [1, 0, 0, 1] [0, 0] [1, 0] = [0, 1, 0, 0] ∧
      (volk_8u_x3_encodepolar_8u_x2_generic [9, 9, 9, 9] [8, 8, 8, 8] [1, 0, 0, 1] [0, 0]
          [1, 0] 4).1 = [1, 0, 1, 0] := by decide

/-- C7: for every exact power of two `2 ^ k` with `k` in `0..31`,
`log2_of_power_of_2` returns the exponent `k`. -/
theorem C7_log2_of_power_of_2_exact (k : ℕ) (hk : k < 32) :
    log2_of_power_of_2 (2 ^ k) = k :=
  log2_two_pow k hk

/-- Witness for C7 at `k = 5`. -/
theorem C7_witness : 5 < 32 ∧ log2_of_power_of_2 (2 ^ 5) = 5 :=
  ⟨by decide, C7_log2_of_power_of_2_exact 5 (by decide)⟩

/-- C8 fails on the code as stated for `N = 1`: with valid 0/1 inputs (mask
`[0]`, info `[1]`) the generic kernel performs zero passes and never writes
`frame`, so `frame` keeps its prior cell `7`, which is not 0 or 1. -/
theorem C8_counterexample :
    ¬ AllBits (volk_8u_x3_encodepolar_8u_x2_generic [7] [9] [0] [] [1] 1).1 := by decide

/-- C8 (amended): for every power-of-two frame size `2 ^ S` with `S ≥ 1` and
frozen/info inputs whose cells are all 0 or 1, the scalar encoder overwrites
`frame` with a codeword in which every cell is 0 or 1 (for `N = 1` the frame
is not written at all, so the property can only hold of `temp`). -/
theorem C8_amended_output_bits (S : ℕ) (hS : S < 32) (h1 : 1 ≤ S)
    (frame temp mask frozen info : List ℕ) (hf : AllBits frozen) (hi : AllBits info) :
    AllBits (volk_8u_x3_encodepolar_8u_x2_generic frame temp mask frozen info (2 ^ S)).1 := by
  obtain ⟨s, rfl⟩ : ∃ s, S = s + 1 := ⟨S - 1, by omega⟩
  unfold volk_8u_x3_encodepolar_8u_x2_generic
  rw [log2_two_pow _ hS, generic_loop_fst]
  exact allBits_spec_passes _ _ _ (allBits_interleave _ _ _ _ hf hi)

/-- Witness for C8 (amended) at `S = 2` with scenario-2 inputs. -/
theorem C8_witness :
    2 < 32 ∧ 1 ≤ 2 ∧ AllBits [0, 0] ∧ AllBits [1, 0] ∧
      AllBits (volk_8u_x3_encodepolar_8u_x2_generic [9, 9, 9, 9] [8, 8, 8, 8] [1, 0, 0, 1]
        [0, 0] [1, 0] (2 ^ 2)).1 :=
  ⟨by decide, by decide, by decide, by decide,
    C8_amended_output_bits 2 (by decide) (by decide) [9, 9, 9, 9] [8, 8, 8, 8] [1, 0, 0, 1]
      [0, 0] [1, 0] (by decide) (by decide)⟩

/-- C9: for every power-of-two frame size `2 ^ S` with `S ≥ 1`, after the
generic kernel returns, the scratch buffer `temp` holds exactly the same bytes
as `frame` (the copy-back after the final pass). -/
theorem C9_temp_equals_frame (S : ℕ) (hS : S < 32) (h1 : 1 ≤ S)
    (frame temp mask frozen info : List ℕ) :
    (volk_8u_x3_encodepolar_8u_x2_generic frame temp mask frozen info (2 ^ S)).2 =
      (volk_8u_x3_encodepolar_8u_x2_generic frame temp mask frozen info (2 ^ S)).1 := by
  obtain ⟨s, rfl⟩ : ∃ s, S = s + 1 := ⟨S - 1, by omega⟩
  unfold volk_8u_x3_encodepolar_8u_x2_generic
  rw [log2_two_pow _ hS, generic_loop_fst, generic_loop_snd]

/-- Witness for C9 at `S = 2` with scenario-2 inputs. -/
theorem C9_witness :
    2 < 32 ∧ 1 ≤ 2 ∧
      (volk_8u_x3_encodepolar_8u_x2_generic [9, 9, 9, 9] [8, 8, 8, 8] [1, 0, 0, 1] [0, 0]
          [1, 0] (2 ^ 2)).2 =
        (volk_8u_x3_encodepolar_8u_x2_generic [9, 9, 9, 9] [8, 8, 8, 8] [1, 0, 0, 1] [0, 0]
          [1, 0] (2 ^ 2)).1 :=
  ⟨by decide, by decide,
    C9_temp_equals_frame 2 (by decide) (by decide) [9, 9, 9, 9] [8, 8, 8, 8] [1, 0, 0, 1]
      [0, 0] [1, 0]⟩

/-- C4 fails on the code as stated for `N = 1`: with all-zero mask, info
vectors `[1]` and `[1]` and prior frame contents `[1]`, encoding the XOR
`[0]` leaves `frame = [1]` (no pass is performed and `frame` is never
written), while the XOR of the two encodings is `[1] XOR [1] = [0]`. -/
theorem C4_counterexample :
    ¬ ((volk_8u_x3_encodepolar_8u_x2_generic [1] [0] [0] []
          (List.zipWith (· ^^^ ·) [1] [1]) 1).1 =
        List.zipWith (· ^^^ ·)
          (volk_8u_x3_encodepolar_8u_x2_generic [1] [0] [0] [] [1] 1).1
          (volk_8u_x3_encodepolar_8u_x2_generic [1] [0] [0] [] [1] 1).1) := by decide

/-- C4 (amended): for every power-of-two frame size `2 ^ S` with `S ≥ 1` and
info-bit vectors of length `2 ^ S` with 0/1 cells, when the mask is all zero
the scalar encoding is linear over XOR: the encoding of the element-wise XOR
equals the element-wise XOR of the encodings (for `N = 1` the kernel never
writes `frame`, so linearity of the output fails there). -/
theorem C4_amended_linear_over_xor (S : ℕ) (hS : S < 32) (h1 : 1 ≤ S)
    (frame temp frozen infoA infoB : List ℕ)
    (hA : infoA.length = 2 ^ S) (hB : infoB.length = 2 ^ S)
    (hbA : AllBits infoA) (hbB : AllBits infoB) :
    (volk_8u_x3_encodepolar_8u_x2_generic frame temp (List.replicate (2 ^ S) 0) frozen
        (List.zipWith (· ^^^ ·) infoA infoB) (2 ^ S)).1 =
      List.zipWith (· ^^^ ·)
        (volk_8u_x3_encodepolar_8u_x2_generic frame temp (List.replicate (2 ^ S) 0) frozen
          infoA (2 ^ S)).1
        (volk_8u_x3_encodepolar_8u_x2_generic frame temp (List.replicate (2 ^ S) 0) frozen
          infoB (2 ^ S)).1 := by
  obtain ⟨s, rfl⟩ : ∃ s, S = s + 1 := ⟨S - 1, by omega⟩
  unfold volk_8u_x3_encodepolar_8u_x2_generic
  rw [log2_two_pow _ hS]
  simp only [generic_loop_fst]
  rw [interleave_zero_mask, interleave_zero_mask, interleave_zero_mask]
  have hAB : infoA.length = infoB.length := hA.trans hB.symm
  have hzip : ((List.range (2 ^ (s + 1))).map fun i =>
      (List.zipWith (· ^^^ ·) infoA infoB).getD i 0) =
      List.zipWith (· ^^^ ·)
        ((List.range (2 ^ (s + 1))).map fun i => infoA.getD i 0)
        ((List.range (2 ^ (s + 1))).map fun i => infoB.getD i 0) := by
    rw [List.zipWith_map, List.zipWith_same]
    exact List.map_congr_left fun i _ => getD_zipWith_xor hAB i
  rw [hzip]
  exact spec_passes_linear _ _ _ (by rw [List.length_map, List.length_map])

/-- Witness for C4 (amended) at `S = 1`, `infoA = [1,0]`, `infoB = [1,1]`. -/
theorem C4_witness :
    1 < 32 ∧ 1 ≤ 1 ∧ ([1, 0] : List ℕ).length = 2 ^ 1 ∧ ([1, 1] : List ℕ).length = 2 ^ 1 ∧
      AllBits [1, 0] ∧ AllBits [1, 1] ∧
      (volk_8u_x3_encodepolar_8u_x2_generic [5, 5] [6, 6] (List.replicate (2 ^ 1) 0) []
          (List.zipWith (· ^^^ ·) [1, 0] [1, 1]) (2 ^ 1)).1 =
        List.zipWith (· ^^^ ·)
          (volk_8u_x3_encodepolar_8u_x2_generic [5, 5] [6, 6] (List.replicate (2 ^ 1) 0) []
            [1, 0] (2 ^ 1)).1
          (volk_8u_x3_encodepolar_8u_x2_generic [5, 5] [6, 6] (List.replicate (2 ^ 1) 0) []
            [1, 1] (2 ^ 1)).1 :=
  ⟨by decide, by decide, by decide, by decide, by decide, by decide,
    C4_amended_linear_over_xor 1 (by decide) (by decide) [5, 5] [6, 6] [] [1, 0] [1, 1]
      (by decide) (by decide) (by decide) (by decide)⟩

/-! ### SSSE3 helper lemmas -/

theorem range16_eq : List.range 16 = [0,1,2,3,4,5,6,7,8,9,10,11,12,13,14,15] := rfl

theorem xor_left_comm (a b c : ℕ) : a ^^^ (b ^^^ c) = b ^^^ (a ^^^ c) := by
  rw [← Nat.xor_assoc, Nat.xor_comm a b, Nat.xor_assoc]

theorem xor_mod_two_pow (a b n : ℕ) : (a ^^^ b) % 2 ^ n = a % 2 ^ n ^^^ b % 2 ^ n := by
  apply Nat.eq_of_testBit_eq
  intro i
  simp only [Nat.testBit_mod_two_pow, Nat.testBit_xor]
  by_cases h : i < n <;> simp [h]

theorem xor_mod256 (a b : ℕ) : (a ^^^ b) % 256 = a % 256 ^^^ b % 256 := by
  have h := xor_mod_two_pow a b 8
  simpa using h

theorem and255_eq_mod (x : ℕ) : x &&& 255 = x % 256 := by
  have h := Nat.and_pow_two_sub_one_eq_mod x 8
  simpa using h

theorem load16_junk (t : List ℕ) (ptr j : ℕ) (h : ptr + 16 ≤ t.length) :
    load16 t ptr j = load16 t ptr 0 := by
  unfold load16
  refine List.map_congr_left fun i hi => ?_
  have hi' : ptr + i < t.length := by
    have := List.mem_range.mp hi; omega
  rw [List.getD_eq_getElem?_getD, List.getElem?_eq_getElem hi', List.getD_eq_getElem?_getD,
    List.getElem?_eq_getElem hi']
  rfl

theorem load16_expand (t : List ℕ) (ptr j : ℕ) :
    load16 t ptr j =
      [t.getD (ptr + 0) j, t.getD (ptr + 1) j, t.getD (ptr + 2) j, t.getD (ptr + 3) j,
       t.getD (ptr + 4) j, t.getD (ptr + 5) j, t.getD (ptr + 6) j, t.getD (ptr + 7) j,
       t.getD (ptr + 8) j, t.getD (ptr + 9) j, t.getD (ptr + 10) j, t.getD (ptr + 11) j,
       t.getD (ptr + 12) j, t.getD (ptr + 13) j, t.getD (ptr + 14) j,
       t.getD (ptr + 15) j] := rfl

theorem bsrli1_apply (v0 v1 v2 v3 v4 v5 v6 v7 v8 v9 v10 v11 v12 v13 v14 v15 : ℕ) :
    mm_bsrli_si128 [v0, v1, v2, v3, v4, v5, v6, v7, v8, v9, v10, v11, v12, v13, v14, v15] 1 =
      [v1, v2, v3, v4, v5, v6, v7, v8, v9, v10, v11, v12, v13, v14, v15, 0] := rfl

theorem bsrli2_apply (v0 v1 v2 v3 v4 v5 v6 v7 v8 v9 v10 v11 v12 v13 v14 v15 : ℕ) :
    mm_bsrli_si128 [v0, v1, v2, v3, v4, v5, v6, v7, v8, v9, v10, v11, v12, v13, v14, v15] 2 =
      [v2, v3, v4, v5, v6, v7, v8, v9, v10, v11, v12, v13, v14, v15, 0, 0] := rfl

theorem bsrli4_apply (v0 v1 v2 v3 v4 v5 v6 v7 v8 v9 v10 v11 v12 v13 v14 v15 : ℕ) :
    mm_bsrli_si128 [v0, v1, v2, v3, v4, v5, v6, v7, v8, v9, v10, v11, v12, v13, v14, v15] 4 =
      [v4, v5, v6, v7, v8, v9, v10, v11, v12, v13, v14, v15, 0, 0, 0, 0] := rfl

theorem bsrli8_apply (v0 v1 v2 v3 v4 v5 v6 v7 v8 v9 v10 v11 v12 v13 v14 v15 : ℕ) :
    mm_bsrli_si128 [v0, v1, v2, v3, v4, v5, v6, v7, v8, v9, v10, v11, v12, v13, v14, v15] 8 =
      [v8, v9, v10, v11, v12, v13, v14, v15, 0, 0, 0, 0, 0, 0, 0, 0] := rfl

theorem shuffle_separate_apply (v0 v1 v2 v3 v4 v5 v6 v7 v8 v9 v10 v11 v12 v13 v14 v15 : ℕ) :
    mm_shuffle_epi8 [v0, v1, v2, v3, v4, v5, v6, v7, v8, v9, v10, v11, v12, v13, v14, v15]
        shuffle_separate =
      [v0, v2, v4, v6, v8, v10, v12, v14, v1, v3, v5, v7, v9, v11, v13, v15] := rfl

theorem shuffle_stage4_apply (v0 v1 v2 v3 v4 v5 v6 v7 v8 v9 v10 v11 v12 v13 v14 v15 : ℕ) :
    mm_shuffle_epi8 [v0, v1, v2, v3, v4, v5, v6, v7, v8, v9, v10, v11, v12, v13, v14, v15]
        shuffle_stage4 =
      [v0, v8, v4, v12, v2, v10, v6, v14, v1, v9, v5, v13, v3, v11, v7, v15] := rfl

theorem and_stage1_apply (v0 v1 v2 v3 v4 v5 v6 v7 v8 v9 v10 v11 v12 v13 v14 v15 : ℕ) :
    mm_and_si128 [v0, v1, v2, v3, v4, v5, v6, v7, v8, v9, v10, v11, v12, v13, v14, v15]
        mask_stage1 =
      [v0 &&& 255, 0, v2 &&& 255, 0, v4 &&& 255, 0, v6 &&& 255, 0,
       v8 &&& 255, 0, v10 &&& 255, 0, v12 &&& 255, 0, v14 &&& 255, 0] := by
  simp [mm_and_si128, mask_stage1, mm_set_epi8]

theorem and_stage2_apply (v0 v1 v2 v3 v4 v5 v6 v7 v8 v9 v10 v11 v12 v13 v14 v15 : ℕ) :
    mm_and_si128 [v0, v1, v2, v3, v4, v5, v6, v7, v8, v9, v10, v11, v12, v13, v14, v15]
        mask_stage2 =
      [v0 &&& 255, v1 &&& 255, 0, 0, v4 &&& 255, v5 &&& 255, 0, 0,
       v8 &&& 255, v9 &&& 255, 0, 0, v12 &&& 255, v13 &&& 255, 0, 0] := by
  simp [mm_and_si128, mask_stage2, mm_set_epi8]

theorem and_stage3_apply (v0 v1 v2 v3 v4 v5 v6 v7 v8 v9 v10 v11 v12 v13 v14 v15 : ℕ) :
    mm_and_si128 [v0, v1, v2, v3, v4, v5, v6, v7, v8, v9, v10, v11, v12, v13, v14, v15]
        mask_stage3 =
      [v0 &&& 255, v1 &&& 255, v2 &&& 255, v3 &&& 255, 0, 0, 0, 0,
       v8 &&& 255, v9 &&& 255, v10 &&& 255, v11 &&& 255, 0, 0, 0, 0] := by
  simp [mm_and_si128, mask_stage3, mm_set_epi8]

theorem and_stage4_apply (v0 v1 v2 v3 v4 v5 v6 v7 v8 v9 v10 v11 v12 v13 v14 v15 : ℕ) :
    mm_and_si128 [v0, v1, v2, v3, v4, v5, v6, v7, v8, v9, v10, v11, v12, v13, v14, v15]
        mask_stage4 =
      [v0 &&& 255, v1 &&& 255, v2 &&& 255, v3 &&& 255,
       v4 &&& 255, v5 &&& 255, v6 &&& 255, v7 &&& 255, 0, 0, 0, 0, 0, 0, 0, 0] := by
  simp [mm_and_si128, mask_stage4, mm_set_epi8]

theorem getD_append_left' {A : List ℕ} (B : List ℕ) {i : ℕ} (d : ℕ) (h : i < A.length) :
    (A ++ B).getD i d = A.getD i d := by
  rw [List.getD_eq_getElem?_getD, List.getElem?_append_left h, ← List.getD_eq_getElem?_getD]

theorem getD_append_right_self (A B : List ℕ) (i d : ℕ) :
    (A ++ B).getD (A.length + i) d = B.getD i d := by
  rw [List.getD_eq_getElem?_getD, List.getElem?_append_right (Nat.le_add_right _ _),
    Nat.add_sub_cancel_left, ← List.getD_eq_getElem?_getD]

theorem getD_drop (t : List ℕ) (n k d : ℕ) : (t.drop n).getD k d = t.getD (n + k) d := by
  rw [List.getD_eq_getElem?_getD, List.getElem?_drop, ← List.getD_eq_getElem?_getD]

theorem load16_drop (t : List ℕ) (x j : ℕ) :
    load16 (t.drop 16) x j = load16 t (16 + x) j := by
  unfold load16
  refine List.map_congr_left fun i _ => ?_
  rw [getD_drop, Nat.add_assoc]

theorem load16_take (t : List ℕ) (h : 16 ≤ t.length) : load16 t 0 0 = t.take 16 := by
  refine List.ext_getElem ?_ fun i h1 h2 => ?_
  · simp [load16, List.length_take]
    omega
  · simp only [load16, List.getElem_map, List.getElem_range, List.getElem_take]
    have hi : i < t.length := by
      simp [load16] at h1
      omega
    rw [Nat.zero_add, List.getD_eq_getElem?_getD, List.getElem?_eq_getElem hi]
    rfl

theorem flatMap_congr_left {α β : Type} {l : List α} {f g : α → List β}
    (h : ∀ a ∈ l, f a = g a) : l.flatMap f = l.flatMap g := by
  induction l with
  | nil => rfl
  | cons a l ih =>
    rw [List.flatMap_cons, List.flatMap_cons, h a (List.mem_cons_self a l),
      ih fun x hx => h x (List.mem_cons_of_mem a hx)]

theorem range_mul_flatMap (m : ℕ) (q : ℕ) (f : ℕ → ℕ) :
    (List.range (q * m)).map f =
      (List.range q).flatMap fun c => (List.range m).map fun i => f (m * c + i) := by
  induction q with
  | zero => simp
  | succ q ih =>
    rw [Nat.succ_mul, List.range_add, List.map_append, ih, List.range_succ,
      List.flatMap_append, List.flatMap_cons, List.flatMap_nil, List.append_nil,
      List.map_map]
    congr 1
    refine List.map_congr_left fun i _ => ?_
    simp only [Function.comp_apply]
    rw [Nat.mul_comm m q]

/-! ### The coarse tier equals scalar passes -/

theorem coarse_chunk_spec (t : List ℕ) (ptr junk : ℕ)
    (hlen : ptr + 32 ≤ t.length) (hb : AllBits t) :
    (coarse_chunk t ptr junk).1 =
      ((List.range 16).map fun i => t.getD (ptr + 2 * i) 0 ^^^ t.getD (ptr + 2 * i + 1) 0) ∧
    (coarse_chunk t ptr junk).2 =
      ((List.range 16).map fun i => t.getD (ptr + 2 * i + 1) 0) := by
  have h0 : load16 t ptr junk = load16 t ptr 0 := load16_junk t ptr junk (by omega)
  have h16 : load16 t (ptr + 16) junk = load16 t (ptr + 16) 0 :=
    load16_junk t (ptr + 16) junk (by omega)
  have hbit : ∀ k : ℕ, t[k]?.getD 0 = 0 ∨ t[k]?.getD 0 = 1 := fun k => by
    have h := allBits_getD hb k
    rwa [List.getD_eq_getElem?_getD] at h
  have hband : ∀ k : ℕ, t[k]?.getD 0 &&& 255 = t[k]?.getD 0 := fun k => by
    rcases hbit k with h | h <;> rw [h] <;> rfl
  have hmod : ∀ k : ℕ, t[k]?.getD 0 % 256 = t[k]?.getD 0 := fun k => by
    rcases hbit k with h | h <;> rw [h] <;> rfl
  constructor
  · simp only [coarse_chunk, h0, h16, load16_expand, bsrli1_apply, and_stage1_apply,
      mm_xor_si128, List.zipWith_cons_cons, List.zipWith_nil_right]
    simp only [shuffle_separate_apply, mm_unpacklo_epi64]
    simp [range16_eq, hband, hmod, Nat.xor_comm, Nat.add_assoc]
  · simp only [coarse_chunk, h0, h16, load16_expand, bsrli1_apply, and_stage1_apply,
      mm_xor_si128, List.zipWith_cons_cons, List.zipWith_nil_right]
    simp only [shuffle_separate_apply, mm_unpackhi_epi64]
    simp [range16_eq, hband, hmod, Nat.xor_comm, Nat.add_assoc]

theorem coarse_pass_eq_single_stage (b h : ℕ) (t : List ℕ) (j : ℕ)
    (hdvd : 16 ∣ h) (hlen : 2 * b * h ≤ t.length) (hb : AllBits t) :
    coarse_pass b h t j = encodepolar_single_stage t b h := by
  obtain ⟨q, hq⟩ := hdvd
  have hq16 : h / 16 = q := by rw [hq]; exact Nat.mul_div_cancel_left q (by omega)
  unfold coarse_pass encodepolar_single_stage
  refine flatMap_congr_left fun br hbr => ?_
  have hbrb : br < b := List.mem_range.mp hbr
  have hbound : ∀ c, c < q → 2 * h * br + 32 * c + 32 ≤ t.length := by
    intro c hc
    have h1 : 32 * c + 32 ≤ 2 * h := by
      calc 32 * c + 32 = 32 * (c + 1) := by ring
        _ ≤ 32 * q := Nat.mul_le_mul_left 32 (by omega)
        _ = 2 * h := by rw [hq]; ring
    have h2 : 2 * h * br + 2 * h ≤ 2 * b * h := by
      calc 2 * h * br + 2 * h = 2 * h * (br + 1) := by ring
        _ ≤ 2 * h * b := Nat.mul_le_mul_left (2 * h) (by omega)
        _ = 2 * b * h := by ring
    calc 2 * h * br + 32 * c + 32 ≤ 2 * h * br + 2 * h := by omega
      _ ≤ 2 * b * h := h2
      _ ≤ t.length := hlen
  congr 1
  · rw [show (List.range h).map (fun bit =>
        t.getD (2 * h * br + 2 * bit) 0 ^^^ t.getD (2 * h * br + 2 * bit + 1) 0) =
        (List.range (q * 16)).map (fun bit =>
        t.getD (2 * h * br + 2 * bit) 0 ^^^ t.getD (2 * h * br + 2 * bit + 1) 0) by
        rw [hq, Nat.mul_comm 16 q],
      range_mul_flatMap, hq16]
    refine flatMap_congr_left fun c hc => ?_
    have hcq : c < q := List.mem_range.mp hc
    rw [(coarse_chunk_spec t (2 * h * br + 32 * c) j (hbound c hcq) hb).1]
    refine List.map_congr_left fun i _ => ?_
    have e1 : 2 * h * br + 32 * c + 2 * i = 2 * h * br + 2 * (16 * c + i) := by ring
    rw [e1]
  · rw [show (List.range h).map (fun bit => t.getD (2 * h * br + 2 * bit + 1) 0) =
        (List.range (q * 16)).map (fun bit => t.getD (2 * h * br + 2 * bit + 1) 0) by
        rw [hq, Nat.mul_comm 16 q],
      range_mul_flatMap, hq16]
    refine flatMap_congr_left fun c hc => ?_
    have hcq : c < q := List.mem_range.mp hc
    rw [(coarse_chunk_spec t (2 * h * br + 32 * c) j (hbound c hcq) hb).2]
    refine List.map_congr_left fun i _ => ?_
    have e2 : 2 * h * br + 32 * c + 2 * i + 1 = 2 * h * br + 2 * (16 * c + i) + 1 := by ring
    rw [e2]

theorem coarse_tier_eq (n : ℕ) :
    ∀ (b : ℕ) (t : List ℕ) (j : ℕ), t.length = 2 * b * (8 * 2 ^ n) → AllBits t →
      coarse_tier (n + 4) b (8 * 2 ^ n) t j =
        (spec_passes n b (8 * 2 ^ n) t, b * 2 ^ n, 8) := by
  induction n with
  | zero =>
    intro b t j _ _
    simp [coarse_tier, spec_passes]
  | succ n ih =>
    intro b t j hlen hb
    have hpass : coarse_pass b (8 * 2 ^ (n + 1)) t j =
        encodepolar_single_stage t b (8 * 2 ^ (n + 1)) := by
      refine coarse_pass_eq_single_stage b _ t j ⟨2 ^ n, by ring⟩ (le_of_eq hlen.symm) hb
    have hhalf : (8 * 2 ^ (n + 1)) >>> 1 = 8 * 2 ^ n := by
      rw [Nat.shiftRight_eq_div_pow, pow_one, pow_succ]
      omega
    rw [show n + 1 + 4 = n + 5 from rfl, coarse_tier, hhalf, hpass, single_stage_eq_spec,
      Nat.shiftLeft_eq, pow_one]
    have hlen' : (spec_single_pass b (8 * 2 ^ (n + 1)) t).length =
        2 * (b * 2) * (8 * 2 ^ n) := by
      rw [length_spec_single_pass]
      ring_nf
    rw [ih (b * 2) _ j hlen' (allBits_spec_single_pass _ _ hb)]
    have hsp : spec_passes (n + 1) b (8 * 2 ^ (n + 1)) t =
        spec_passes n (b * 2) (8 * 2 ^ n) (spec_single_pass b (8 * 2 ^ (n + 1)) t) := by
      rw [spec_passes, Nat.mul_comm 2 b, show 8 * 2 ^ (n + 1) / 2 = 8 * 2 ^ n by
        rw [pow_succ]; omega]
    rw [hsp]
    have : b * 2 * 2 ^ n = b * 2 ^ (n + 1) := by rw [pow_succ]; ring
    rw [this]

/-! ### The fine tier equals the last four scalar passes -/

set_option maxHeartbeats 2000000 in
theorem fine_network_eq_spec4 (t : List ℕ) (off junk : ℕ)
    (hlen : off + 16 ≤ t.length) (hb : AllBits t) :
    fine_network (load16 t off junk) = spec_passes 4 1 8 (load16 t off 0) := by
  rw [load16_junk t off junk hlen]
  have hbit : ∀ k : ℕ, t[k]?.getD 0 = 0 ∨ t[k]?.getD 0 = 1 := fun k => by
    have h := allBits_getD hb k
    rwa [List.getD_eq_getElem?_getD] at h
  have hband : ∀ k : ℕ, t[k]?.getD 0 &&& 255 = t[k]?.getD 0 := fun k => by
    rcases hbit k with h | h <;> rw [h] <;> rfl
  have hmod : ∀ k : ℕ, t[k]?.getD 0 % 256 = t[k]?.getD 0 := fun k => by
    rcases hbit k with h | h <;> rw [h] <;> rfl
  simp only [fine_network, load16_expand, shuffle_stage4_apply, bsrli8_apply,
    and_stage4_apply, mm_xor_si128, List.zipWith_cons_cons, List.zipWith_nil_right,
    bsrli4_apply, and_stage3_apply, bsrli2_apply, and_stage2_apply, bsrli1_apply,
    and_stage1_apply]
  simp [spec_passes, spec_single_pass, spec_pass_value, range16_eq, hband, hmod,
    and255_eq_mod, xor_mod256, Nat.xor_comm, Nat.xor_assoc, xor_left_comm, Nat.add_assoc]

theorem single_stage_append (k m h : ℕ) (A B : List ℕ) (hA : A.length = 2 * h * k) :
    encodepolar_single_stage (A ++ B) (k + m) h =
      encodepolar_single_stage A k h ++ encodepolar_single_stage B m h := by
  unfold encodepolar_single_stage
  rw [List.range_add, List.flatMap_append]
  congr 1
  · refine flatMap_congr_left fun br hbr => ?_
    have hbrk : br < k := List.mem_range.mp hbr
    have hmono : 2 * h * br + 2 * h ≤ 2 * h * k := by
      calc 2 * h * br + 2 * h = 2 * h * (br + 1) := by ring
        _ ≤ 2 * h * k := Nat.mul_le_mul_left (2 * h) (by omega)
    congr 1
    · refine List.map_congr_left fun bit hbit => ?_
      have hbh : bit < h := List.mem_range.mp hbit
      have h1 : 2 * h * br + 2 * bit < A.length := by
        rw [hA]
        calc 2 * h * br + 2 * bit < 2 * h * br + 2 * h :=
              Nat.add_lt_add_left (by omega) _
          _ ≤ 2 * h * k := hmono
      have h2 : 2 * h * br + 2 * bit + 1 < A.length := by
        rw [hA]
        calc 2 * h * br + 2 * bit + 1 = 2 * h * br + (2 * bit + 1) := by ring
          _ < 2 * h * br + 2 * h := Nat.add_lt_add_left (by omega) _
          _ ≤ 2 * h * k := hmono
      rw [getD_append_left' B 0 h1, getD_append_left' B 0 h2]
    · refine List.map_congr_left fun bit hbit => ?_
      have hbh : bit < h := List.mem_range.mp hbit
      have h2 : 2 * h * br + 2 * bit + 1 < A.length := by
        rw [hA]
        calc 2 * h * br + 2 * bit + 1 = 2 * h * br + (2 * bit + 1) := by ring
          _ < 2 * h * br + 2 * h := Nat.add_lt_add_left (by omega) _
          _ ≤ 2 * h * k := hmono
      rw [getD_append_left' B 0 h2]
  · rw [List.flatMap_map]
    refine flatMap_congr_left fun br _ => ?_
    congr 1
    · refine List.map_congr_left fun bit _ => ?_
      have e1 : 2 * h * (k + br) + 2 * bit = A.length + (2 * h * br + 2 * bit) := by
        rw [hA]; ring
      have e2 : 2 * h * (k + br) + 2 * bit + 1 =
          A.length + (2 * h * br + 2 * bit + 1) := by
        rw [hA]; ring
      rw [e1, show A.length + (2 * h * br + 2 * bit) + 1 =
          A.length + (2 * h * br + 2 * bit + 1) by omega,
        getD_append_right_self, getD_append_right_self]
    · refine List.map_congr_left fun bit _ => ?_
      have e2 : 2 * h * (k + br) + 2 * bit + 1 =
          A.length + (2 * h * br + 2 * bit + 1) := by
        rw [hA]; ring
      rw [e2, getD_append_right_self]

theorem spec_single_pass_append (k m h : ℕ) (A B : List ℕ) (hA : A.length = 2 * h * k) :
    spec_single_pass (k + m) h (A ++ B) =
      spec_single_pass k h A ++ spec_single_pass m h B := by
  rw [← single_stage_eq_spec, ← single_stage_eq_spec, ← single_stage_eq_spec,
    single_stage_append k m h A B hA]

theorem spec_passes4_append (b : ℕ) (A B : List ℕ) (hA : A.length = 16) :
    spec_passes 4 (1 + b) 8 (A ++ B) = spec_passes 4 1 8 A ++ spec_passes 4 b 8 B := by
  simp only [spec_passes, Nat.reduceDiv, Nat.reduceMul]
  rw [spec_single_pass_append 1 b 8 A B (by rw [hA]),
    show 2 * (1 + b) = 2 + 2 * b by ring,
    spec_single_pass_append 2 (2 * b) 4 _ _ (by simp [length_spec_single_pass]),
    show 2 * (2 + 2 * b) = 4 + 2 * (2 * b) by ring,
    spec_single_pass_append 4 (2 * (2 * b)) 2 _ _ (by simp [length_spec_single_pass]),
    show 2 * (4 + 2 * (2 * b)) = 8 + 2 * (2 * (2 * b)) by ring,
    spec_single_pass_append 8 (2 * (2 * (2 * b))) 1 _ _ (by simp [length_spec_single_pass])]

theorem fine_loop_drop (b : ℕ) :
    ∀ (off : ℕ) (r0 t : List ℕ) (j : ℕ),
      fine_loop b (16 + off) r0 t j = fine_loop b off r0 (t.drop 16) j := by
  induction b with
  | zero => intro off r0 t j; rfl
  | succ b ih =>
    intro off r0 t j
    rw [fine_loop, fine_loop, Nat.add_assoc, ih (off + 16), load16_drop]

theorem fine_loop_eq_spec4 (b : ℕ) :
    ∀ (t : List ℕ) (j : ℕ), t.length = 16 * b → AllBits t →
      fine_loop b 16 (load16 t 0 j) t j = spec_passes 4 b 8 t := by
  induction b with
  | zero =>
    intro t j hlen hb
    rw [fine_loop]
    simp [spec_passes, spec_single_pass]
  | succ b ih =>
    intro t j hlen hb
    have ht16 : 16 ≤ t.length := by omega
    have hr : load16 t 16 j = load16 (t.drop 16) 0 j := by
      rw [load16_drop]
    rw [fine_loop, show (16 : ℕ) + 16 = 16 + 16 from rfl, fine_loop_drop b 16, hr,
      ih (t.drop 16) j (by simp; omega) (fun x hx => hb x (List.mem_of_mem_drop hx)),
      fine_network_eq_spec4 t 0 j (by omega) hb, load16_take t ht16]
    conv_rhs => rw [show b + 1 = 1 + b by omega, ← List.take_append_drop 16 t]
    rw [spec_passes4_append b (t.take 16) (t.drop 16) (by simp; omega)]

theorem spec_passes_len_bits (n : ℕ) :
    ∀ (b : ℕ) (t : List ℕ), t.length = 2 * b * (8 * 2 ^ n) → AllBits t →
      (spec_passes n b (8 * 2 ^ n) t).length = 16 * (b * 2 ^ n) ∧
        AllBits (spec_passes n b (8 * 2 ^ n) t) := by
  induction n with
  | zero =>
    intro b t hlen hb
    refine ⟨?_, hb⟩
    simp only [spec_passes]
    omega
  | succ n ih =>
    intro b t hlen hb
    have hsp : spec_passes (n + 1) b (8 * 2 ^ (n + 1)) t =
        spec_passes n (2 * b) (8 * 2 ^ n) (spec_single_pass b (8 * 2 ^ (n + 1)) t) := by
      rw [spec_passes, show 8 * 2 ^ (n + 1) / 2 = 8 * 2 ^ n by rw [pow_succ]; omega]
    rw [hsp]
    have hlen' : (spec_single_pass b (8 * 2 ^ (n + 1)) t).length =
        2 * (2 * b) * (8 * 2 ^ n) := by
      rw [length_spec_single_pass]
      ring_nf
    obtain ⟨hl, hb'⟩ := ih (2 * b) _ hlen' (allBits_spec_single_pass _ _ hb)
    exact ⟨hl.trans (by rw [pow_succ]; ring), hb'⟩

theorem spec_passes_add (m : ℕ) :
    ∀ (k b h : ℕ) (t : List ℕ),
      spec_passes (m + k) b h t =
        spec_passes k (2 ^ m * b) (h / 2 ^ m) (spec_passes m b h t) := by
  induction m with
  | zero =>
    intro k b h t
    simp [spec_passes]
  | succ m ih =>
    intro k b h t
    rw [show m + 1 + k = m + k + 1 by omega, spec_passes, ih k (2 * b) (h / 2),
      show (2 : ℕ) ^ (m + 1) * b = 2 ^ m * (2 * b) by rw [pow_succ]; ring,
      show h / 2 ^ (m + 1) = h / 2 / 2 ^ m by
        rw [Nat.div_div_eq_div_mul, pow_succ, Nat.mul_comm 2 (2 ^ m)],
      show spec_passes (m + 1) b h t =
        spec_passes m (2 * b) (h / 2) (spec_single_pass b h t) from rfl]

/-! ### The SSSE3 kernels equal the spec passes -/

theorem pow_shift_half (n : ℕ) : (2 : ℕ) ^ (n + 4) >>> 1 = 8 * 2 ^ n := by
  rw [Nat.shiftRight_eq_div_pow, pow_one,
    show (2 : ℕ) ^ (n + 4) = 8 * 2 ^ n * 2 by rw [pow_add]; ring]
  exact Nat.mul_div_cancel _ (by omega)

theorem u_ssse3_eq_spec (n : ℕ) (hS : n + 4 < 32) (junk : ℕ)
    (frame temp mask frozen info : List ℕ) (hbf : AllBits frozen) (hbi : AllBits info) :
    volk_8u_x3_encodepolar_8u_x2_u_ssse3 junk frame temp mask frozen info (2 ^ (n + 4)) =
      (spec_passes (n + 4) 1 (8 * 2 ^ n)
         (interleave_frozen_and_info_bits (2 ^ (n + 4)) mask frozen info),
       spec_passes n 1 (8 * 2 ^ n)
         (interleave_frozen_and_info_bits (2 ^ (n + 4)) mask frozen info)) := by
  have hlen0 : (interleave_frozen_and_info_bits (2 ^ (n + 4)) mask frozen info).length =
      2 * 1 * (8 * 2 ^ n) := by
    rw [interleave_length, pow_add]; ring
  have hb0 : AllBits (interleave_frozen_and_info_bits (2 ^ (n + 4)) mask frozen info) :=
    allBits_interleave _ _ _ _ hbf hbi
  simp only [volk_8u_x3_encodepolar_8u_x2_u_ssse3, log2_two_pow _ hS, pow_shift_half]
  rw [coarse_tier_eq n 1 _ junk hlen0 hb0]
  obtain ⟨hlc, hbc⟩ := spec_passes_len_bits n 1 _ hlen0 hb0
  rw [one_mul] at hlc
  dsimp only
  rw [one_mul, fine_loop_eq_spec4 (2 ^ n) _ junk hlc hbc,
    spec_passes_add n 4 1 (8 * 2 ^ n), Nat.mul_one,
    Nat.mul_div_cancel 8 (Nat.two_pow_pos n)]

theorem a_ssse3_eq_u_ssse3 :
    volk_8u_x3_encodepolar_8u_x2_a_ssse3 = volk_8u_x3_encodepolar_8u_x2_u_ssse3 := rfl

theorem pow_div_half (n : ℕ) : (2 : ℕ) ^ (n + 4) / 2 = 8 * 2 ^ n := by
  rw [show (2 : ℕ) ^ (n + 4) = 8 * 2 ^ n * 2 by rw [pow_add]; ring]
  exact Nat.mul_div_cancel _ (by omega)

theorem fine_load_offsets_getLast (b : ℕ) :
    ∀ ptr : ℕ, (fine_load_offsets (b + 1) ptr).getLast? = some (ptr + 16 * b) := by
  induction b with
  | zero => intro ptr; simp [fine_load_offsets]
  | succ b ih =>
    intro ptr
    have h1 : fine_load_offsets (b + 1 + 1) ptr =
        ptr :: fine_load_offsets (b + 1) (ptr + 16) := rfl
    have h2 : fine_load_offsets (b + 1) (ptr + 16) =
        (ptr + 16) :: fine_load_offsets b (ptr + 16 + 16) := rfl
    rw [h1, h2, List.getLast?_cons_cons, ← h2, ih (ptr + 16)]
    congr 1
    omega

/-- C1: for every frame size `2 ^ S` with `S ≥ 4` (an exact power of two at
least 16) and all inputs satisfying the length preconditions with 0/1 frozen
and info values, the scalar encoder and both vectorized encoders (unaligned
and aligned SSSE3 variants, for every value of the bytes `junk` that follow
the `temp` buffer in memory) leave byte-identical contents in `frame`. -/
theorem C1_scalar_vectorized_equivalence (S : ℕ) (hS4 : 4 ≤ S) (hS : S < 32)
    (frame temp mask frozen info : List ℕ)
    (hm : mask.length = 2 ^ S)
    (hf : frozen.length = mask.countP (fun x => x != 0))
    (hi : info.length = 2 ^ S - mask.countP (fun x => x != 0))
    (hbf : AllBits frozen) (hbi : AllBits info) (junk : ℕ) :
    (volk_8u_x3_encodepolar_8u_x2_u_ssse3 junk frame temp mask frozen info (2 ^ S)).1 =
        (volk_8u_x3_encodepolar_8u_x2_generic frame temp mask frozen info (2 ^ S)).1 ∧
      (volk_8u_x3_encodepolar_8u_x2_a_ssse3 junk frame temp mask frozen info (2 ^ S)).1 =
        (volk_8u_x3_encodepolar_8u_x2_generic frame temp mask frozen info (2 ^ S)).1 := by
  obtain ⟨n, rfl⟩ : ∃ n, S = n + 4 := ⟨S - 4, by omega⟩
  have hu : (volk_8u_x3_encodepolar_8u_x2_u_ssse3 junk frame temp mask frozen info
        (2 ^ (n + 4))).1 =
      (volk_8u_x3_encodepolar_8u_x2_generic frame temp mask frozen info
        (2 ^ (n + 4))).1 := by
    rw [u_ssse3_eq_spec n hS junk frame temp mask frozen info hbf hbi,
      generic_eq_spec_passes (n + 4) hS frame temp mask frozen info]
    dsimp only
    rw [if_neg (by omega), pow_div_half]
  exact ⟨hu, by rw [a_ssse3_eq_u_ssse3]; exact hu⟩

/-- Witness for C1 at `S = 4` (`N = 16`), all-information frame, `junk = 37`. -/
theorem C1_witness :
    4 ≤ 4 ∧ 4 < 32 ∧ (List.replicate 16 0 : List ℕ).length = 2 ^ 4 ∧
      ([] : List ℕ).length = (List.replicate 16 0 : List ℕ).countP (fun x => x != 0) ∧
      ([1, 0, 1, 1, 0, 0, 1, 0, 1, 1, 1, 0, 0, 1, 0, 1] : List ℕ).length =
        2 ^ 4 - (List.replicate 16 0 : List ℕ).countP (fun x => x != 0) ∧
      AllBits [] ∧ AllBits [1, 0, 1, 1, 0, 0, 1, 0, 1, 1, 1, 0, 0, 1, 0, 1] ∧
      ((volk_8u_x3_encodepolar_8u_x2_u_ssse3 37 (List.replicate 16 9) (List.replicate 16 8)
            (List.replicate 16 0) [] [1, 0, 1, 1, 0, 0, 1, 0, 1, 1, 1, 0, 0, 1, 0, 1]
            (2 ^ 4)).1 =
          (volk_8u_x3_encodepolar_8u_x2_generic (List.replicate 16 9) (List.replicate 16 8)
            (List.replicate 16 0) [] [1, 0, 1, 1, 0, 0, 1, 0, 1, 1, 1, 0, 0, 1, 0, 1]
            (2 ^ 4)).1 ∧
        (volk_8u_x3_encodepolar_8u_x2_a_ssse3 37 (List.replicate 16 9) (List.replicate 16 8)
            (List.replicate 16 0) [] [1, 0, 1, 1, 0, 0, 1, 0, 1, 1, 1, 0, 0, 1, 0, 1]
            (2 ^ 4)).1 =
          (volk_8u_x3_encodepolar_8u_x2_generic (List.replicate 16 9) (List.replicate 16 8)
            (List.replicate 16 0) [] [1, 0, 1, 1, 0, 0, 1, 0, 1, 1, 1, 0, 0, 1, 0, 1]
            (2 ^ 4)).1) :=
  ⟨by decide, by decide, by decide, by decide, by decide, by decide, by decide,
    C1_scalar_vectorized_equivalence 4 (by decide) (by decide) (List.replicate 16 9)
      (List.replicate 16 8) (List.replicate 16 0) []
      [1, 0, 1, 1, 0, 0, 1, 0, 1, 1, 1, 0, 0, 1, 0, 1] (by decide) (by decide) (by decide)
      (by decide) (by decide) 37⟩

/-- C10: for every frame size `2 ^ S` with `S ≥ 4` and valid 0/1 inputs, after
the coarse tier the `temp` buffer holds exactly `2 ^ S` bytes while the last
load issued by the fine-tier loop (whose load offsets `fine_load_offsets`
mirrors) starts at offset `2 ^ S` — one full 16-byte chunk past the buffer —
and the value obtained by that out-of-range load (modelled by the `junk`
parameter) never influences any byte of the result of either SSSE3 encoder. -/
theorem C10_trailing_load_out_of_range_but_dead (S : ℕ) (hS4 : 4 ≤ S) (hS : S < 32)
    (frame temp mask frozen info : List ℕ)
    (hm : mask.length = 2 ^ S)
    (hf : frozen.length = mask.countP (fun x => x != 0))
    (hi : info.length = 2 ^ S - mask.countP (fun x => x != 0))
    (hbf : AllBits frozen) (hbi : AllBits info) (junk junk2 : ℕ) :
    (coarse_tier S 1 (2 ^ S >>> 1)
        (interleave_frozen_and_info_bits (2 ^ S) mask frozen info) junk).1.length =
        2 ^ S ∧
      (fine_load_offsets (coarse_tier S 1 (2 ^ S >>> 1)
          (interleave_frozen_and_info_bits (2 ^ S) mask frozen info) junk).2.1
          16).getLast? = some (2 ^ S) ∧
      volk_8u_x3_encodepolar_8u_x2_u_ssse3 junk frame temp mask frozen info (2 ^ S) =
        volk_8u_x3_encodepolar_8u_x2_u_ssse3 junk2 frame temp mask frozen info (2 ^ S) ∧
      volk_8u_x3_encodepolar_8u_x2_a_ssse3 junk frame temp mask frozen info (2 ^ S) =
        volk_8u_x3_encodepolar_8u_x2_a_ssse3 junk2 frame temp mask frozen info (2 ^ S) := by
  obtain ⟨n, rfl⟩ : ∃ n, S = n + 4 := ⟨S - 4, by omega⟩
  have hlen0 : (interleave_frozen_and_info_bits (2 ^ (n + 4)) mask frozen info).length =
      2 * 1 * (8 * 2 ^ n) := by
    rw [interleave_length, pow_add]; ring
  have hb0 : AllBits (interleave_frozen_and_info_bits (2 ^ (n + 4)) mask frozen info) :=
    allBits_interleave _ _ _ _ hbf hbi
  rw [pow_shift_half, coarse_tier_eq n 1 _ junk hlen0 hb0]
  obtain ⟨hlc, hbc⟩ := spec_passes_len_bits n 1 _ hlen0 hb0
  refine ⟨?_, ?_, ?_, ?_⟩
  · dsimp only
    rw [hlc, pow_add]
    ring
  · dsimp only
    obtain ⟨m, hm2⟩ : ∃ m, 2 ^ n = m + 1 := ⟨2 ^ n - 1, by
      have := Nat.two_pow_pos n; omega⟩
    rw [one_mul, hm2, fine_load_offsets_getLast m 16]
    have hp : (2 : ℕ) ^ (n + 4) = 16 * (m + 1) := by rw [← hm2, pow_add]; ring
    congr 1
    omega
  · rw [u_ssse3_eq_spec n hS junk frame temp mask frozen info hbf hbi,
      u_ssse3_eq_spec n hS junk2 frame temp mask frozen info hbf hbi]
  · rw [a_ssse3_eq_u_ssse3, u_ssse3_eq_spec n hS junk frame temp mask frozen info hbf hbi,
      u_ssse3_eq_spec n hS junk2 frame temp mask frozen info hbf hbi]

/-- Witness for C10 at `S = 4`, `junk = 37`, `junk2 = 123456`. -/
theorem C10_witness :
    4 ≤ 4 ∧ 4 < 32 ∧ (List.replicate 16 0 : List ℕ).length = 2 ^ 4 ∧
      ([] : List ℕ).length = (List.replicate 16 0 : List ℕ).countP (fun x => x != 0) ∧
      ([1, 0, 1, 1, 0, 0, 1, 0, 1, 1, 1, 0, 0, 1, 0, 1] : List ℕ).length =
        2 ^ 4 - (List.replicate 16 0 : List ℕ).countP (fun x => x != 0) ∧
      AllBits [] ∧ AllBits [1, 0, 1, 1, 0, 0, 1, 0, 1, 1, 1, 0, 0, 1, 0, 1] ∧
      ((coarse_tier 4 1 (2 ^ 4 >>> 1)
          (interleave_frozen_and_info_bits (2 ^ 4) (List.replicate 16 0) []
            [1, 0, 1, 1, 0, 0, 1, 0, 1, 1, 1, 0, 0, 1, 0, 1]) 37).1.length = 2 ^ 4 ∧
        (fine_load_offsets (coarse_tier 4 1 (2 ^ 4 >>> 1)
            (interleave_frozen_and_info_bits (2 ^ 4) (List.replicate 16 0) []
              [1, 0, 1, 1, 0, 0, 1, 0, 1, 1, 1, 0, 0, 1, 0, 1]) 37).2.1 16).getLast? =
          some (2 ^ 4) ∧
        volk_8u_x3_encodepolar_8u_x2_u_ssse3 37 (List.replicate 16 9) (List.replicate 16 8)
            (List.replicate 16 0) [] [1, 0, 1, 1, 0, 0, 1, 0, 1, 1, 1, 0, 0, 1, 0, 1]
            (2 ^ 4) =
          volk_8u_x3_encodepolar_8u_x2_u_ssse3 123456 (List.replicate 16 9)
            (List.replicate 16 8) (List.replicate 16 0) []
            [1, 0, 1, 1, 0, 0, 1, 0, 1, 1, 1, 0, 0, 1, 0, 1] (2 ^ 4) ∧
        volk_8u_x3_encodepolar_8u_x2_a_ssse3 37 (List.replicate 16 9) (List.replicate 16 8)
            (List.replicate 16 0) [] [1, 0, 1, 1, 0, 0, 1, 0, 1, 1, 1, 0, 0, 1, 0, 1]
            (2 ^ 4) =
          volk_8u_x3_encodepolar_8u_x2_a_ssse3 123456 (List.replicate 16 9)
            (List.replicate 16 8) (List.replicate 16 0) []
            [1, 0, 1, 1, 0, 0, 1, 0, 1, 1, 1, 0, 0, 1, 0, 1] (2 ^ 4)) :=
  ⟨by decide, by decide, by decide, by decide, by decide, by decide, by decide,
    C10_trailing_load_out_of_range_but_dead 4 (by decide) (by decide)
      (List.replicate 16 9) (List.replicate 16 8) (List.replicate 16 0) []
      [1, 0, 1, 1, 0, 0, 1, 0, 1, 1, 1, 0, 0, 1, 0, 1] (by decide) (by decide) (by decide)
      (by decide) (by decide) 37 123456⟩

end Volk
